import Mathlib

/-!
# Verification of the sum-check protocol implementation

A shallow embedding of the Rust sources of the `sum-check` repository
(`src/field.rs`, `src/polynomial.rs`, `src/protocol/{mod,prover,verifier,rejection}.rs`)
together with proofs about the embedded definitions.

Modelling conventions:
* field elements are elements of an arbitrary commutative ring / field `F`,
  mirroring the code's use of the abstract `ark_ff::Field` operations; the
  concrete field of `src/field.rs` (`Fp256`, modulus `2^255 - 19`) is
  instantiated as `F256 := ZMod P25519` for the concrete scenarios;
* the `HashMap<String, Vec<F>>` evaluation tables, whose key set is always the
  full set of bit strings of the current width, are modelled as their lookup
  function `List Bool → List F` on bit strings (`'0'`/`'1'` becoming
  `false`/`true`, most significant variable first); iteration over the
  `HashMap` is modelled as iteration over the canonical key enumeration
  `(0..2^k).map(number_to_bit_string)` used by the code to build every such
  map — all folds performed over maps are commutative, so the (unspecified)
  `HashMap` iteration order cannot be observed;
* imperative accumulation loops (`result += …`, `l_i_r *= …`) are embedded as
  `List.foldl` over the ranges the loops iterate over;
* the verifier's `thread_rng` sampling is modelled by passing the sampled
  challenge(s) as explicit arguments (the spec, section 9, itself describes the
  randomness source as an injectable parameter);
* `unwrap`-style partiality: `Option.getD` is used where the protocol
  precondition (a validly constructed claim, round messages of the protocol
  shape) makes the access total, and `setup_protocol`, which can actually fail
  on caller-supplied input, returns an `Option`.
-/

namespace SumCheck

/-- The modulus of `Field256` in `src/field.rs`:
`57896044618658097711785492504343953926634992332820282019728792003956564819949`,
that is `2^255 - 19`. -/
def P25519 : ℕ := 57896044618658097711785492504343953926634992332820282019728792003956564819949

/-- `Field256 = Fp256<MontBackend<FieldConfig, 4>>` from `src/field.rs`,
modelled as the integers modulo `P25519`. -/
abbrev F256 : Type := ZMod P25519

/-- `ark_poly::multivariate::SparseTerm`: a product of powers of variables,
stored as a list of (variable index, power) pairs. -/
abbrev SparseTerm : Type := List (ℕ × ℕ)

/-- `SparseTerm::degree`: the total degree, the sum of the powers. -/
def SparseTerm.degree (t : SparseTerm) : ℕ :=
  (t.map Prod.snd).sum

/-- `SparseTerm::evaluate`: the product of `point[var]^power` over the pairs of
the term.  The Rust indexing `point[*var]` is total in every use (variables are
below the point length); it is modelled as `List.getD _ _ 0`. -/
def SparseTerm.evaluate {F : Type} [CommRing F] (t : SparseTerm) (point : List F) : F :=
  (t.map (fun vp => (point.getD vp.1 0) ^ vp.2)).prod

/-- `ark_poly::multivariate::SparsePolynomial<F, SparseTerm>`: a number of
variables together with a list of (coefficient, term) pairs. -/
structure SparsePolynomial (F : Type) where
  num_vars : ℕ
  terms : List (F × SparseTerm)

/-- `SparsePolynomial::degree`: the maximum total degree of a term
(`max().unwrap_or(0)`, modelled as a `max`-fold with base `0`, which agrees
with it on `ℕ`). -/
def SparsePolynomial.degree {F : Type} (p : SparsePolynomial F) : ℕ :=
  (p.terms.map (fun ct => SparseTerm.degree ct.2)).foldr max 0

/-- `SparsePolynomial::evaluate`: the sum over the terms of
`coeff * term.evaluate(point)`. -/
def SparsePolynomial.evaluate {F : Type} [CommRing F] (p : SparsePolynomial F) (point : List F) : F :=
  (p.terms.map (fun ct => ct.1 * SparseTerm.evaluate ct.2 point)).sum

/-- `pub type ProductPolynomial = Vec<SparsePolynomial<F, SparseTerm>>`
(`src/polynomial.rs`); the later sources name the same type
`ProductMLPolynomial`. -/
abbrev ProductPolynomial (F : Type) : Type := List (SparsePolynomial F)

/-- `pub type MVMLDescription = Vec<(F, F)>` (`src/polynomial.rs`). -/
abbrev MVMLDescription (F : Type) : Type := List (F × F)

/-- `PolynomialDescription`, the round-message type imported by
`src/protocol/{mod,verifier}.rs` from `polynomial.rs` but absent from the
`polynomial.rs` in the sources.  Per the spec (section 3, RoundMessage) it is a
sequence of field elements, the values `g(0), …, g(m)` of the round
polynomial. -/
abbrev PolynomialDescription (F : Type) : Type := List F

/-- `get_num_vars` (`src/polynomial.rs`): on a non-empty list, checks every
tail element for equal `num_vars` with the head, `degree() == 1`, and
`head.degree() == 1`, returning `some head.num_vars` when all checks pass;
`none` on the empty list.  (Note: for a single-element list the `all` is
vacuous, so no degree check happens at all.) -/
def get_num_vars {F : Type} (multilinears : List (SparsePolynomial F)) : Option ℕ :=
  match multilinears with
  | head :: tail =>
      if tail.all (fun x => x.num_vars == head.num_vars &&
          x.degree == 1 && head.degree == 1)
      then some head.num_vars else none
  | [] => none

/-- `from_multilinears` (`src/polynomial.rs`). -/
def from_multilinears {F : Type} (multilinears : List (SparsePolynomial F)) :
    Option (ProductPolynomial F) :=
  match get_num_vars multilinears with
  | some _ => some multilinears
  | none => none

/-- `evaluate_mvml` (`src/polynomial.rs`): the product (`fold(F::ONE, F::mul)`)
of the factors evaluated at the point. -/
def evaluate_mvml {F : Type} [CommRing F] (product_poly : ProductPolynomial F) (point : List F) : F :=
  (product_poly.map (fun ml_poly => ml_poly.evaluate point)).foldl (· * ·) 1

/-- `number_to_bit_string` (`src/polynomial.rs`): the `num_vars` low bits of
`number`, most significant bit first (the code formats `number` in binary over
32 characters and keeps the last `num_vars`; for `number < 2^num_vars`, as in
every use, this is exactly the big-endian bit string below). -/
def number_to_bit_string : ℕ → ℕ → List Bool
  | 0, _ => []
  | k + 1, number => (number / 2 ^ k % 2 == 1) :: number_to_bit_string k (number % 2 ^ k)

/-- `bit_string_to_vector` (`src/polynomial.rs`): each character byte `b` is
mapped to `F::from(b % 2)`, i.e. `'1' ↦ 1` and `'0' ↦ 0`. -/
def bit_string_to_vector {F : Type} [CommRing F] (bit_string : List Bool) : List F :=
  bit_string.map (fun b => if b then 1 else 0)

/-- The `HashMap<String, Vec<F>>` evaluation-table maps, modelled by their
lookup function on bit-string keys (see the module docstring). -/
abbrev Table (F : Type) : Type := List Bool → List F

/-- `evaluate_polynomial_on_hypercube` (`src/polynomial.rs`): the table whose
value at each point of `{0,1}^num_vars` is the vector of the factors'
evaluations there.  (The built `HashMap` has exactly the keys
`(0..2^num_vars).map(number_to_bit_string)`; the lookup function below agrees
with it on those keys.) -/
def evaluate_polynomial_on_hypercube {F : Type} [CommRing F]
    (p : ProductPolynomial F) (_num_vars : ℕ) : Table F :=
  fun bit_string => p.map (fun pol => pol.evaluate (bit_string_to_vector bit_string))

/-! ### `src/protocol/rejection.rs` -/

/-- `RejectError` (`src/protocol/rejection.rs`). -/
structure RejectError where
  details : String

/-- `RejectError::new`. -/
def RejectError.new (msg : String) : RejectError := ⟨msg⟩

/-! ### `src/protocol/prover.rs` -/

/-- `ProverState` (`src/protocol/prover.rs`). -/
structure ProverState (F : Type) where
  last_round : ℕ
  num_vars : ℕ
  map : Table F

/-- `Prover::claim_sum` (`src/protocol/prover.rs`): builds the initial table
and returns the claimed sum — over the `2^num_vars` map entries, the sum
(`fold(F::ZERO, F::add)`) of the product (`fold(F::ONE, F::mul)`) of each
value vector — together with the initial state (round counter 0).  The source
`unwrap`s `get_num_vars`; the embedding uses `getD 0`, and every theorem about
`claim_sum` assumes a validly constructed claim (`get_num_vars = some n`). -/
def Prover.claim_sum {F : Type} [CommRing F] (poly : ProductPolynomial F) :
    F × ProverState F :=
  let num_vars := (get_num_vars poly).getD 0
  let initial_state : ProverState F :=
    ⟨0, num_vars, evaluate_polynomial_on_hypercube poly num_vars⟩
  let claim :=
    (((List.range (2 ^ num_vars)).map (number_to_bit_string num_vars)).map
        (fun k => (initial_state.map k).foldl (· * ·) 1)).foldl (· + ·) 0
  (claim, initial_state)

/-- `collapse_map` (`src/protocol/prover.rs`): folds `add_to_acc` over the map
entries, producing componentwise sums of the value vectors of the keys starting
with `0` (resp. `1`).  `add_to_acc` initializes each accumulator to a zero
vector of the length of the first value vector encountered; `w` is the current
key width (in the source it is implicit in the map's key set). -/
def collapse_map {F : Type} [CommRing F] (w : ℕ) (map : Table F) : List F × List F :=
  let m := (map (number_to_bit_string w 0)).length
  (((List.range (2 ^ (w - 1))).map
        (fun n => map (false :: number_to_bit_string (w - 1) n))).foldl
      (fun acc v => acc.zipWith (· + ·) v) (List.replicate m 0),
   ((List.range (2 ^ (w - 1))).map
        (fun n => map (true :: number_to_bit_string (w - 1) n))).foldl
      (fun acc v => acc.zipWith (· + ·) v) (List.replicate m 0))

/-- `Prover::round_phase_1` (`src/protocol/prover.rs`): zips the two halves of
`collapse_map` into a list of per-factor pairs. -/
def Prover.round_phase_1 {F : Type} [CommRing F] (state : ProverState F) :
    MVMLDescription F × ProverState F :=
  let p := collapse_map (state.num_vars - state.last_round) state.map
  (p.1.zip p.2, state)

/-- `combine_table_elements` (`src/protocol/prover.rs`): componentwise
`a0 - r*a0 + r*a1` of the vectors at keys `0‖bit_string` and `1‖bit_string`. -/
def combine_table_elements {F : Type} [CommRing F]
    (bit_string : List Bool) (r : F) (map : Table F) : List F :=
  List.zipWith (fun a0 a1 => a0 - r * a0 + r * a1)
    (map (false :: bit_string)) (map (true :: bit_string))

/-- `reduce_map` (`src/protocol/prover.rs`): the collapsed table, whose value
at each of the `2^num_vars` new keys is `combine_table_elements`. -/
def reduce_map {F : Type} [CommRing F] (_num_vars : ℕ) (r : F) (map : Table F) : Table F :=
  fun bit_string => combine_table_elements bit_string r map

/-- `Prover::round_phase_2` (`src/protocol/prover.rs`): collapses the table
with the received challenge and advances the round counter. -/
def Prover.round_phase_2 {F : Type} [CommRing F] (state : ProverState F) (r : F) :
    ProverState F :=
  let num_vars := state.num_vars - state.last_round - 1
  { state with
      last_round := state.last_round + 1
      map := reduce_map num_vars r state.map }

/-- Modelled from the spec: the `Prover::round_phase_1` that returns a
`PolynomialDescription`, required by `orchestrate_protocol`
(`src/protocol/mod.rs`) and `Verifier::round` (`src/protocol/verifier.rs`) but
absent from the sources — the `prover.rs` present holds an earlier version
returning per-factor pairs (`MVMLDescription`), which does not typecheck
against those callers.  Following spec section 4.2: with `k` remaining free
variables after this round fixes one, for every `b ∈ {0,1}^k` and every
`j ∈ {0,…,m}` the per-factor value is
`v_k(j,b) = (1−j)·table_k[0‖b] + j·table_k[1‖b]`, and the message is
`[g(0),…,g(m)]` with `g(j) = Σ_b Π_k v_k(j,b)`. -/
def Prover.round_phase_1_poly {F : Type} [CommRing F] (state : ProverState F) :
    PolynomialDescription F × ProverState F :=
  let w := state.num_vars - state.last_round
  let m := (state.map (number_to_bit_string w 0)).length
  (((List.range (m + 1)).map (fun (j : ℕ) =>
      (((List.range (2 ^ (w - 1))).map (fun n =>
          (List.zipWith (fun a0 a1 => (1 - ((j : ℕ) : F)) * a0 + ((j : ℕ) : F) * a1)
            (state.map (false :: number_to_bit_string (w - 1) n))
            (state.map (true :: number_to_bit_string (w - 1) n))).foldl (· * ·) 1)).foldl
        (· + ·) 0))),
   state)

/-! ### `src/protocol/verifier.rs` -/

/-- `VerifierState` (`src/protocol/verifier.rs`). -/
structure VerifierState (F : Type) where
  last_round : ℕ
  num_polys : ℕ
  poly : ProductPolynomial F
  claimed_sum : F
  running_eval : F
  randomness : List F

/-- `Verifier::initialize` (`src/protocol/verifier.rs`). -/
def Verifier.initialize {F : Type} (poly : ProductPolynomial F) (claimed : F) :
    VerifierState F :=
  ⟨0, poly.length, poly, claimed, claimed, []⟩

/-- Modelled from the spec: `evaluate_mvml_polynomial`, imported by
`verifier.rs` from `polynomial.rs` but absent there; per spec section 4.3 the
final check "evaluates the original factors at the full challenge vector,
takes their product" — the computation performed by `evaluate_mvml`. -/
def evaluate_mvml_polynomial {F : Type} [CommRing F]
    (product_poly : ProductPolynomial F) (point : List F) : F :=
  evaluate_mvml product_poly point

/-- `Verifier::evaluate_intermediate` (`src/protocol/verifier.rs`):
`message[0] + message[1]`.  The source `unwrap`s the two accesses; round
messages always have length `m+1 ≥ 2`, and theorems either assume this or
supply messages of that shape. -/
def Verifier.evaluate_intermediate {F : Type} [CommRing F]
    (mvml_desc : PolynomialDescription F) : F :=
  mvml_desc.getD 0 0 + mvml_desc.getD 1 0

/-- `F::from(i as u16)`: node indices are cast to the field through `u16`,
hence reduced mod `2^16`. -/
def castU16 {F : Type} [CommRing F] (i : ℕ) : F := ((i % 65536 : ℕ) : F)

/-- `Verifier::evaluate_at_random_point` (`src/protocol/verifier.rs`):
Lagrange interpolation through the points `(i, message[i])`, evaluated at `r`.
The two imperative accumulation loops (over `i` and `j` in `0..=k`, skipping
`j = i` in the inner one) are embedded as folds over the same ranges. -/
def Verifier.evaluate_at_random_point {F : Type} [Field F]
    (mvml_descr : PolynomialDescription F) (r : F) : F :=
  let k := mvml_descr.length - 1
  ((List.range (k + 1)).map (fun i =>
      mvml_descr.getD i 0 *
        (((List.range (k + 1)).filter (fun j => i != j)).map
            (fun j => (r - castU16 j) / (castU16 i - castU16 j))).foldl (· * ·) 1)).foldl
    (· + ·) 0

/-- `Verifier::round` (`src/protocol/verifier.rs`): rejects when
`evaluate_intermediate message ≠ running_eval`; otherwise appends the sampled
challenge `r` (modelled as an explicit argument, replacing the `thread_rng`
sampling) to the randomness, recomputes `running_eval` at `r`, and advances the
round counter. -/
def Verifier.round {F : Type} [Field F] [DecidableEq F] (state : VerifierState F)
    (mvml_desc : PolynomialDescription F) (r : F) :
    Except RejectError (F × VerifierState F) :=
  if Verifier.evaluate_intermediate mvml_desc ≠ state.running_eval then
    .error (RejectError.new "Rejecting the Prover claim!")
  else
    .ok (r, { state with
        last_round := state.last_round + 1
        running_eval := Verifier.evaluate_at_random_point mvml_desc r
        randomness := state.randomness ++ [r] })

/-- `Verifier::sanity_check` (`src/protocol/verifier.rs`): compares the
original factors' product at the accumulated challenges with the final
`running_eval`, returning the flag together with the challenge vector. -/
def Verifier.sanity_check {F : Type} [CommRing F] [DecidableEq F]
    (state : VerifierState F) : Bool × List F :=
  (decide (evaluate_mvml_polynomial state.poly state.randomness = state.running_eval),
   state.randomness)

/-! ### `src/protocol/mod.rs` -/

/-- `ProtocolTranscript` (`src/protocol/mod.rs`). -/
structure ProtocolTranscript (F : Type) where
  _randomness : List F
  accept : Bool

/-- `setup_protocol` (`src/protocol/mod.rs`): derives the variable count
(`unwrap` on failure, modelled as `none`), obtains the claimed sum and prover
state, and initializes the verifier. -/
def setup_protocol {F : Type} [CommRing F] (poly : ProductPolynomial F) :
    Option (ℕ × F × ProverState F × VerifierState F) :=
  match get_num_vars poly with
  | none => none
  | some num_vars =>
      let p := Prover.claim_sum poly
      some (num_vars, p.1, p.2, Verifier.initialize poly p.1)

/-- The `for _ in 0..num_vars` loop of `orchestrate_protocol`
(`src/protocol/mod.rs`), with `fuel` remaining iterations and `i` completed
ones; `rand i` is the challenge the verifier samples in iteration `i`.  The
prover step is the spec-modelled `round_phase_1_poly` (see there).  On `Err`
the loop short-circuits with `{_randomness: vec![], accept: false}`; after the
loop it returns `sanity_check`. -/
def orchestrate_loop {F : Type} [Field F] [DecidableEq F] (rand : ℕ → F) :
    ℕ → ℕ → ProverState F → VerifierState F → ProtocolTranscript F
  | 0, _, _, verifier_state =>
      let s := Verifier.sanity_check verifier_state
      { _randomness := s.2, accept := s.1 }
  | fuel + 1, i, prover_state, verifier_state =>
      let p := Prover.round_phase_1_poly prover_state
      match Verifier.round verifier_state p.1 (rand i) with
      | .ok (r, state) =>
          orchestrate_loop rand fuel (i + 1) (Prover.round_phase_2 p.2 r) state
      | .error _ => { _randomness := [], accept := false }

/-- `orchestrate_protocol` (`src/protocol/mod.rs`). -/
def orchestrate_protocol {F : Type} [Field F] [DecidableEq F] (num_vars : ℕ)
    (_claimed_sum : F) (prover_state : ProverState F) (verifier_state : VerifierState F)
    (rand : ℕ → F) : ProtocolTranscript F :=
  orchestrate_loop rand num_vars 0 prover_state verifier_state

/-- Instrumentation of `orchestrate_loop` recording which round (1-indexed)
is the first whose consistency check fails (`none` when no round fails); it
performs exactly the same calls in the same order. -/
def first_failure {F : Type} [Field F] [DecidableEq F] (rand : ℕ → F) :
    ℕ → ℕ → ProverState F → VerifierState F → Option ℕ
  | 0, _, _, _ => none
  | fuel + 1, i, prover_state, verifier_state =>
      let p := Prover.round_phase_1_poly prover_state
      match Verifier.round verifier_state p.1 (rand i) with
      | .ok (r, state) =>
          first_failure rand fuel (i + 1) (Prover.round_phase_2 p.2 r) state
      | .error _ => some (i + 1)

/-! ### Multilinearity

"Genuinely multilinear" factors: every term has pairwise distinct variables,
each with power at most 1 — degree at most 1 in each variable separately
(spec glossary). -/

/-- A term is multilinear: distinct variables, powers at most 1. -/
def SparseTerm.Multilinear (t : SparseTerm) : Prop :=
  (t.map Prod.fst).Nodup ∧ ∀ vp ∈ t, vp.2 ≤ 1

/-- A sparse polynomial is multilinear when all its terms are. -/
def SparsePolynomial.Multilinear {F : Type} (p : SparsePolynomial F) : Prop :=
  ∀ ct ∈ p.terms, SparseTerm.Multilinear ct.2

instance : DecidablePred SparseTerm.Multilinear := fun t =>
  inferInstanceAs (Decidable ((t.map Prod.fst).Nodup ∧ ∀ vp ∈ t, vp.2 ≤ 1))

instance {F : Type} [DecidableEq F] (p : SparsePolynomial F) :
    Decidable p.Multilinear :=
  inferInstanceAs (Decidable (∀ _ ∈ _, _))

/-! ### Concrete fixtures of the spec's scenarios -/

/-- `f = x₀ + 7` on 2 variables (spec section 8, first concrete scenario). -/
def exF1 : SparsePolynomial F256 := ⟨2, [(1, [(0, 1)]), (7, [])]⟩

/-- `f₂ = 2x₀ + x₁` on 2 variables (spec section 8, second concrete
scenario). -/
def exF2 : SparsePolynomial F256 := ⟨2, [(2, [(0, 1)]), (1, [(1, 1)])]⟩

/-- The size-8 table `[67,9,28,31,93,21,72,95]` of the table-reduction
scenario, as a map from 3-bit keys to singleton vectors. -/
def exTable8 : Table F256 := fun bit_string =>
  match bit_string with
  | [false, false, false] => [67]
  | [false, false, true] => [9]
  | [false, true, false] => [28]
  | [false, true, true] => [31]
  | [true, false, false] => [93]
  | [true, false, true] => [21]
  | [true, true, false] => [72]
  | [true, true, true] => [95]
  | _ => []

/-- `x₀` on 1 variable: a degree-1 factor for the construction-check
counterexample. -/
def exQ1 : SparsePolynomial F256 := ⟨1, [(1, [(0, 1)])]⟩

/-- `x₀²` on 1 variable: same variable count as `exQ1` but total degree 2. -/
def exQ2 : SparsePolynomial F256 := ⟨1, [(1, [(0, 2)])]⟩

/-- A small prime field used to instantiate the generic theorems (the verifier
needs a `Field` instance; `F256` is a field as well, but its primality is not
needed for any concrete computation below). -/
abbrev F101 : Type := ZMod 101

instance : Fact (Nat.Prime 101) := ⟨by norm_num⟩

/-- A freshly initialized verifier state over `F101` with the empty claim and
claimed sum 0, used by witnesses. -/
def vInit0 : VerifierState F101 := Verifier.initialize [] 0

/-- A freshly initialized verifier state over `F101` with the empty claim and
claimed sum 1, used by witnesses. -/
def vInit1 : VerifierState F101 := Verifier.initialize [] 1

/-- A freshly initialized verifier state over `F101` with claimed sum 8, used
by witnesses. -/
def vInit8 : VerifierState F101 := Verifier.initialize [] 8

/-- The multilinear factor `x₀ + 7` on 2 variables over `F101`, used by
witnesses of the protocol-level claims. -/
def exG1 : SparsePolynomial F101 := ⟨2, [(1, [(0, 1)]), (7, [])]⟩

/-- A verifier state for the claim `[exG1]` initialized with the wrong claimed
sum 0 (the true sum is 30): its first round check fails. -/
def vBad : VerifierState F101 := Verifier.initialize [exG1] 0

/-! ### Specification-side definitions used to state the theorems -/

/-- The sum, over the remaining `2^w` hypercube points, of the products of the
table's value vectors: the quantity each round message must reconstruct. -/
def tableSumT {F : Type} [CommRing F] (T : Table F) (w : ℕ) : F :=
  ∑ b ∈ Finset.range (2 ^ w), (T (number_to_bit_string w b)).prod

/-- All value vectors of the table have length `m` (one entry per factor). -/
def TUniform {F : Type} (T : Table F) (m : ℕ) : Prop :=
  ∀ bs, (T bs).length = m

/-- The table of an honest prover after the challenges `rs` have been fixed:
each factor evaluated at `rs` followed by the bits of the key. -/
def hTable {F : Type} [CommRing F] (poly : ProductPolynomial F) (rs : List F) : Table F :=
  fun bs => poly.map (fun p => p.evaluate (rs ++ bit_string_to_vector bs))

/-- The current round's univariate polynomial `g`: for a table of key width
`w`, the sum over the `2^(w-1)` remaining points of the product over the
factors of the affine extension `(1-X)·table[0‖b] + X·table[1‖b]`. -/
noncomputable def roundGT {F : Type} [CommRing F] (T : Table F) (w : ℕ) : Polynomial F :=
  ∑ b ∈ Finset.range (2 ^ (w - 1)),
    (List.zipWith
        (fun a0 a1 => (1 - Polynomial.X) * Polynomial.C a0 + Polynomial.X * Polynomial.C a1)
        (T (false :: number_to_bit_string (w - 1) b))
        (T (true :: number_to_bit_string (w - 1) b))).prod

/-- Verifier states reachable from `Verifier::initialize` by successful
`Verifier::round` calls. -/
inductive VReachable {F : Type} [Field F] [DecidableEq F] : VerifierState F → Prop
  | init (poly : ProductPolynomial F) (claimed : F) :
      VReachable ( Verifier.initialize poly claimed)
  | round (st : VerifierState F) (msg : PolynomialDescription F) (r c : F)
      (st' : VerifierState F) (hst : VReachable st)
      (h : Verifier.round st msg r = .ok (c, st')) : VReachable st'

/-! ## Generic list and arithmetic lemmas -/

theorem foldl_add_eq_sum {M : Type*} [AddCommMonoid M] (l : List M) :
    l.foldl (· + ·) 0 = l.sum :=
  List.sum_eq_foldl.symm

theorem foldl_mul_eq_prod {M : Type*} [CommMonoid M] (l : List M) :
    l.foldl (· * ·) 1 = l.prod :=
  List.prod_eq_foldl.symm

theorem sum_map_range {M : Type*} [AddCommMonoid M] (n : ℕ) (f : ℕ → M) :
    ((List.range n).map f).sum = ∑ i ∈ Finset.range n, f i := by
  induction n with
  | zero => simp
  | succ n ih =>
      rw [List.range_succ, List.map_append, List.sum_append, Finset.sum_range_succ, ih]
      simp

theorem zipWith_map_same {α β γ δ : Type*} (f : β → γ → δ) (g : α → β) (h : α → γ)
    (l : List α) :
    List.zipWith f (l.map g) (l.map h) = l.map (fun x => f (g x) (h x)) := by
  induction l with
  | nil => rfl
  | cons a l ih => simp [ih]

theorem zipWith_fst {α β : Type*} :
    ∀ (l1 : List α) (l2 : List β), l1.length ≤ l2.length →
      List.zipWith (fun a _ => a) l1 l2 = l1
  | [], _, _ => rfl
  | _ :: _, [], h => absurd h (by simp)
  | a :: l1, b :: l2, h => by
      simpa using zipWith_fst l1 l2 (Nat.le_of_succ_le_succ h)

theorem zipWith_snd {α β : Type*} :
    ∀ (l1 : List α) (l2 : List β), l2.length ≤ l1.length →
      List.zipWith (fun _ b => b) l1 l2 = l2
  | _, [], _ => by simp
  | [], _ :: _, h => absurd h (by simp)
  | a :: l1, b :: l2, h => by
      simpa using zipWith_snd l1 l2 (Nat.le_of_succ_le_succ h)

theorem getD_zipWith {α β γ : Type*} (f : α → β → γ) (da : α) (db : β) (d : γ) :
    ∀ (l1 : List α) (l2 : List β) (i : ℕ), i < l1.length → i < l2.length →
      (List.zipWith f l1 l2).getD i d = f (l1.getD i da) (l2.getD i db)
  | a1 :: l1, a2 :: l2, 0, _, _ => rfl
  | a1 :: l1, a2 :: l2, i + 1, h1, h2 =>
      getD_zipWith f da db d l1 l2 i (Nat.lt_of_succ_lt_succ h1) (Nat.lt_of_succ_lt_succ h2)
  | [], _, _, h1, _ => absurd h1 (by simp)
  | _ :: _, [], _, _, h2 => absurd h2 (by simp)

theorem getD_map_range {α : Type*} (d : α) (f : ℕ → α) (n i : ℕ) (h : i < n) :
    ((List.range n).map f).getD i d = f i := by
  rw [List.getD_eq_getElem?_getD, List.getElem?_map, List.getElem?_range h]
  rfl

/-! ## Bit-string lemmas -/

theorem number_to_bit_string_lo (w b : ℕ) (hb : b < 2 ^ w) :
    number_to_bit_string (w + 1) b = false :: number_to_bit_string w b := by
  simp [number_to_bit_string, Nat.div_eq_of_lt hb, Nat.mod_eq_of_lt hb]

theorem number_to_bit_string_hi (w b : ℕ) (hb : b < 2 ^ w) :
    number_to_bit_string (w + 1) (2 ^ w + b) = true :: number_to_bit_string w b := by
  have h1 : (2 ^ w + b) / 2 ^ w = 1 := by
    rw [add_comm, Nat.add_div_right _ (Nat.two_pow_pos w), Nat.div_eq_of_lt hb]
  have h2 : (2 ^ w + b) % 2 ^ w = b := by
    rw [Nat.add_mod_left, Nat.mod_eq_of_lt hb]
  simp [number_to_bit_string, h1, h2]

theorem sum_range_two_pow_succ {M : Type*} [AddCommMonoid M] (w : ℕ) (g : ℕ → M) :
    ∑ b ∈ Finset.range (2 ^ (w + 1)), g b =
      (∑ b ∈ Finset.range (2 ^ w), g b) + ∑ b ∈ Finset.range (2 ^ w), g (2 ^ w + b) := by
  have h2 : 2 ^ (w + 1) = 2 ^ w + 2 ^ w := by ring
  rw [h2, Finset.range_add, Finset.sum_union, Finset.sum_map]
  · simp [addLeftEmbedding_apply]
  · simp only [Finset.disjoint_left, Finset.mem_range, Finset.mem_map,
      addLeftEmbedding_apply, not_exists, not_and]
    intro a ha x _ hx
    omega

theorem tableSumT_succ {F : Type} [CommRing F] (T : Table F) (w : ℕ) :
    tableSumT T (w + 1) =
      (∑ b ∈ Finset.range (2 ^ w), (T (false :: number_to_bit_string w b)).prod) +
        ∑ b ∈ Finset.range (2 ^ w), (T (true :: number_to_bit_string w b)).prod := by
  rw [tableSumT, sum_range_two_pow_succ]
  congr 1
  · exact Finset.sum_congr rfl fun b hb => by
      rw [number_to_bit_string_lo w b (Finset.mem_range.mp hb)]
  · exact Finset.sum_congr rfl fun b hb => by
      rw [number_to_bit_string_hi w b (Finset.mem_range.mp hb)]

/-! ## The accumulating fold of `collapse_map` -/

theorem foldl_zipWith_add_length {F : Type} [CommRing F] :
    ∀ (vs : List (List F)) (acc : List F), (∀ v ∈ vs, v.length = acc.length) →
      (vs.foldl (fun a v => a.zipWith (· + ·) v) acc).length = acc.length
  | [], _, _ => rfl
  | v :: vs, acc, h => by
      have hv : v.length = acc.length := h v (List.mem_cons_self v vs)
      have hzl : (acc.zipWith (· + ·) v).length = acc.length := by
        rw [List.length_zipWith, hv, min_self]
      rw [List.foldl_cons, foldl_zipWith_add_length vs _ (fun v' hv' => by
        rw [hzl]; exact h v' (List.mem_cons_of_mem _ hv')), hzl]

theorem foldl_zipWith_add_getD {F : Type} [CommRing F] (i : ℕ) :
    ∀ (vs : List (List F)) (acc : List F), (∀ v ∈ vs, v.length = acc.length) →
      i < acc.length →
      (vs.foldl (fun a v => a.zipWith (· + ·) v) acc).getD i 0 =
        acc.getD i 0 + (vs.map (fun v => v.getD i 0)).sum
  | [], acc, _, _ => by simp
  | v :: vs, acc, h, hi => by
      have hv : v.length = acc.length := h v (List.mem_cons_self v vs)
      have hzl : (acc.zipWith (· + ·) v).length = acc.length := by
        rw [List.length_zipWith, hv, min_self]
      rw [List.foldl_cons,
        foldl_zipWith_add_getD i vs _ (fun v' hv' => by
          rw [hzl]; exact h v' (List.mem_cons_of_mem _ hv')) (hzl ▸ hi),
        getD_zipWith (· + ·) 0 0 0 acc v i hi (hv ▸ hi), List.map_cons, List.sum_cons,
        add_assoc]

theorem collapse_map_fst_length {F : Type} [CommRing F] (w m : ℕ) (T : Table F)
    (hT : TUniform T m) : (collapse_map w T).1.length = m := by
  have hT' : ∀ bs, (T bs).length = m := hT
  simp only [collapse_map, hT']
  rw [foldl_zipWith_add_length _ _ (fun v hv => by
    obtain ⟨b, _, rfl⟩ := List.mem_map.mp hv
    rw [hT', List.length_replicate]), List.length_replicate]

theorem collapse_map_snd_length {F : Type} [CommRing F] (w m : ℕ) (T : Table F)
    (hT : TUniform T m) : (collapse_map w T).2.length = m := by
  have hT' : ∀ bs, (T bs).length = m := hT
  simp only [collapse_map, hT']
  rw [foldl_zipWith_add_length _ _ (fun v hv => by
    obtain ⟨b, _, rfl⟩ := List.mem_map.mp hv
    rw [hT', List.length_replicate]), List.length_replicate]

theorem collapse_map_fst_getD {F : Type} [CommRing F] (w m : ℕ) (T : Table F)
    (hT : TUniform T m) (i : ℕ) (hi : i < m) :
    (collapse_map w T).1.getD i 0 =
      ∑ b ∈ Finset.range (2 ^ (w - 1)),
        (T (false :: number_to_bit_string (w - 1) b)).getD i 0 := by
  have hT' : ∀ bs, (T bs).length = m := hT
  simp only [collapse_map, hT']
  rw [foldl_zipWith_add_getD i _ _ (fun v hv => by
      obtain ⟨b, _, rfl⟩ := List.mem_map.mp hv
      rw [hT', List.length_replicate]) (by rw [List.length_replicate]; exact hi)]
  rw [List.getD_eq_getElem?_getD, List.getElem?_replicate, if_pos hi, List.map_map]
  show 0 + _ = _
  rw [zero_add, sum_map_range]
  rfl

theorem collapse_map_snd_getD {F : Type} [CommRing F] (w m : ℕ) (T : Table F)
    (hT : TUniform T m) (i : ℕ) (hi : i < m) :
    (collapse_map w T).2.getD i 0 =
      ∑ b ∈ Finset.range (2 ^ (w - 1)),
        (T (true :: number_to_bit_string (w - 1) b)).getD i 0 := by
  have hT' : ∀ bs, (T bs).length = m := hT
  simp only [collapse_map, hT']
  rw [foldl_zipWith_add_getD i _ _ (fun v hv => by
      obtain ⟨b, _, rfl⟩ := List.mem_map.mp hv
      rw [hT', List.length_replicate]) (by rw [List.length_replicate]; exact hi)]
  rw [List.getD_eq_getElem?_getD, List.getElem?_replicate, if_pos hi, List.map_map]
  show 0 + _ = _
  rw [zero_add, sum_map_range]
  rfl


/-! ## Claim theorems: state machine, construction, tables -/

/-- C10: for every `VerifierState` reachable from `Verifier::initialize` by
successful `Verifier::round` calls, the randomness vector's length equals the
round counter `last_round` (0 at initialization, both advancing by one per
successful round). -/
theorem C10_randomness_length {F : Type} [Field F] [DecidableEq F]
    (st : VerifierState F) (h : VReachable st) :
    st.randomness.length = st.last_round := by
  induction h with
  | init poly claimed => rfl
  | round st msg r c st' hst hr ih =>
      unfold Verifier.round at hr
      by_cases hc : Verifier.evaluate_intermediate msg ≠ st.running_eval
      · rw [if_pos hc] at hr
        cases hr
      · rw [if_neg hc] at hr
        simp only [Except.ok.injEq, Prod.mk.injEq] at hr
        obtain ⟨-, hst'⟩ := hr
        subst hst'
        simp [ih]

/-- Witness for C10 at a concrete reachable state. -/
theorem C10_witness :
    VReachable vInit0 ∧ vInit0.randomness.length = vInit0.last_round :=
  ⟨.init [] 0, C10_randomness_length vInit0 (.init [] 0)⟩

/-- C4: `Verifier::round` returns a `RejectError` iff `message[0] + message[1]`
differs from the state's `running_eval`; when they agree it returns `Ok` with
the challenge and the updated state.  (`2 ≤ message.length` is the domain of
the source's `unwrap`ped accesses; round messages always have `m + 1 ≥ 2`
entries.) -/
theorem C4_round_reject_iff :
    ∀ (F : Type) [Field F] [DecidableEq F] (st : VerifierState F)
      (msg : PolynomialDescription F) (r : F), 2 ≤ msg.length →
      ((∃ e, Verifier.round st msg r = .error e) ↔
        msg.getD 0 0 + msg.getD 1 0 ≠ st.running_eval) ∧
      (msg.getD 0 0 + msg.getD 1 0 = st.running_eval →
        Verifier.round st msg r = .ok (r, { st with
          last_round := st.last_round + 1
          running_eval := Verifier.evaluate_at_random_point msg r
          randomness := st.randomness ++ [r] })) := by
  intro F _ _ st msg r _
  simp only [Verifier.round, Verifier.evaluate_intermediate, List.getD_eq_getElem?_getD]
  by_cases hc : msg[0]?.getD 0 + msg[1]?.getD 0 = st.running_eval
  · rw [if_neg (by simp [hc])]
    exact ⟨by simp [hc], fun _ => rfl⟩
  · rw [if_pos (by simp [hc])]
    exact ⟨by simp [hc], fun h => absurd h hc⟩

/-- Witness for C4 at a concrete state and message. -/
theorem C4_witness :
    2 ≤ ([0, 0] : PolynomialDescription F101).length ∧
      ((∃ e, Verifier.round vInit0 [0, 0] 5 = .error e) ↔
        ([0, 0] : PolynomialDescription F101).getD 0 0 +
            ([0, 0] : PolynomialDescription F101).getD 1 0 ≠
          vInit0.running_eval) :=
  ⟨by decide, (C4_round_reject_iff F101 vInit0 [0, 0] 5 (by decide)).1⟩

/-- C9: `Verifier::sanity_check` accepts iff the product of the original
factors at the accumulated challenges equals the final `running_eval`, and it
always returns the challenge vector (of full length `n` after `n` completed
rounds). -/
theorem C9_sanity_check :
    ∀ (F : Type) [CommRing F] [DecidableEq F] (st : VerifierState F) (n : ℕ),
      st.randomness.length = n →
      (((Verifier.sanity_check st).1 = true) ↔
        evaluate_mvml_polynomial st.poly st.randomness = st.running_eval) ∧
      (Verifier.sanity_check st).2 = st.randomness ∧
      (Verifier.sanity_check st).2.length = n := by
  intro F _ _ st n hn
  refine ⟨?_, rfl, hn⟩
  simp [Verifier.sanity_check]

/-- Witness for C9 at a concrete state. -/
theorem C9_witness :
    vInit1.randomness.length = 0 ∧
      ((Verifier.sanity_check vInit1).1 = true ↔
        evaluate_mvml_polynomial vInit1.poly vInit1.randomness = vInit1.running_eval) :=
  ⟨rfl, (C9_sanity_check F101 vInit1 0 rfl).1⟩

/-- C8 (counterexample): two factors with the same variable count — `x₀` and
`x₀²`, both reporting 1 variable — on which claim construction nevertheless
fails, because `get_num_vars` also demands total degree 1 of every factor in a
multi-factor list. -/
theorem C8_cex :
    exQ1.num_vars = exQ2.num_vars ∧ ([exQ1, exQ2] : ProductPolynomial F256).length = 2 ∧
      get_num_vars [exQ1, exQ2] = none := by
  refine ⟨rfl, rfl, ?_⟩
  decide

/-- C8 (amended): claim construction succeeds exactly on non-empty factor
lists in which every tail factor reports the head's variable count and — when
the list has at least two entries — every factor including the head has total
degree exactly 1; multilinearity itself is still not validated (nor is any
degree for a single-factor list), and `setup_protocol` produces no protocol
state exactly when `get_num_vars` fails. -/
theorem C8_get_num_vars :
    ∀ (F : Type) [CommRing F] (poly : ProductPolynomial F) (n : ℕ),
      (get_num_vars poly = some n ↔ ∃ head tail, poly = head :: tail ∧ head.num_vars = n ∧
        ∀ x ∈ tail, x.num_vars = head.num_vars ∧ x.degree = 1 ∧ head.degree = 1) ∧
      (setup_protocol poly = none ↔ get_num_vars poly = none) := by
  intro F _ poly n
  constructor
  · cases poly with
    | nil => simp [get_num_vars]
    | cons head tail =>
        rw [get_num_vars]
        by_cases hc : tail.all (fun x => x.num_vars == head.num_vars &&
            x.degree == 1 && head.degree == 1)
        · rw [if_pos hc]
          simp only [List.all_eq_true, Bool.and_eq_true, beq_iff_eq] at hc
          simp only [Option.some.injEq]
          constructor
          · intro hn
            exact ⟨head, tail, rfl, hn, fun x hx =>
              ⟨(hc x hx).1.1, (hc x hx).1.2, (hc x hx).2⟩⟩
          · rintro ⟨head', tail', heq, hn, -⟩
            cases heq
            exact hn
        · rw [if_neg hc]
          simp only [List.all_eq_true, Bool.and_eq_true, beq_iff_eq] at hc
          constructor
          · intro h
            cases h
          · rintro ⟨head', tail', heq, hn, hall⟩
            cases heq
            exact absurd (fun x hx => ⟨⟨(hall x hx).1, (hall x hx).2.1⟩, (hall x hx).2.2⟩) hc
  · cases h : get_num_vars poly <;> simp [setup_protocol, h]

/-- C3: the collapse step — a table over `k+1` remaining variables reduced
with challenge `r` — yields, at every new key `b < 2^k`, the componentwise
combination `(1−r)·table[b] + r·table[b + 2^k]` (leading remaining variable
fixed, high bit first); and the spec's size-8 singleton-vector table
`[67,9,28,31,93,21,72,95]` collapsed with challenge 83 is exactly
`{00 ↦ [2225], 01 ↦ [1005], 10 ↦ [3680], 11 ↦ [5343]}`. -/
theorem C3_reduce_map :
    (∀ (F : Type) [CommRing F] (k : ℕ) (T : Table F) (r : F) (b : ℕ), b < 2 ^ k →
      reduce_map k r T (number_to_bit_string k b) =
        List.zipWith (fun a0 a1 => (1 - r) * a0 + r * a1)
          (T (number_to_bit_string (k + 1) b))
          (T (number_to_bit_string (k + 1) (b + 2 ^ k)))) ∧
    reduce_map 2 (83 : F256) exTable8 [false, false] = [2225] ∧
    reduce_map 2 (83 : F256) exTable8 [false, true] = [1005] ∧
    reduce_map 2 (83 : F256) exTable8 [true, false] = [3680] ∧
    reduce_map 2 (83 : F256) exTable8 [true, true] = [5343] := by
  refine ⟨?_, by decide, by decide, by decide, by decide⟩
  intro F _ k T r b hb
  rw [add_comm b (2 ^ k), number_to_bit_string_lo k b hb, number_to_bit_string_hi k b hb]
  show List.zipWith (fun a0 a1 => a0 - r * a0 + r * a1) _ _ = _
  have hfun : (fun a0 a1 : F => a0 - r * a0 + r * a1) =
      fun a0 a1 : F => (1 - r) * a0 + r * a1 := by
    funext a0 a1
    ring
  rw [hfun]

/-- Witness for C3's general part at the concrete scenario table. -/
theorem C3_witness :
    1 < 2 ^ 2 ∧
      reduce_map 2 (83 : F256) exTable8 (number_to_bit_string 2 1) =
        List.zipWith (fun a0 a1 => (1 - (83 : F256)) * a0 + 83 * a1)
          (exTable8 (number_to_bit_string 3 1)) (exTable8 (number_to_bit_string 3 (1 + 2 ^ 2))) :=
  ⟨by decide, C3_reduce_map.1 F256 2 exTable8 83 1 (by decide)⟩

/-- C2: for a validly constructed claim over `n` variables, `claim_sum`
returns the sum over all `2^n` hypercube points of the product of the factor
evaluations (the products of the table entries), with round counter 0; and for
the single factor `f = x₀ + 7` on 2 variables it returns exactly 30. -/
theorem C2_claim_sum :
    (∀ (F : Type) [CommRing F] (poly : ProductPolynomial F) (n : ℕ),
      get_num_vars poly = some n →
      (Prover.claim_sum poly).1 =
        (∑ b ∈ Finset.range (2 ^ n),
          (poly.map (fun p =>
            p.evaluate (bit_string_to_vector (number_to_bit_string n b)))).prod) ∧
      (Prover.claim_sum poly).2.last_round = 0) ∧
    (Prover.claim_sum [exF1]).1 = 30 ∧ get_num_vars [exF1] = some 2 := by
  refine ⟨?_, by decide, by decide⟩
  intro F _ poly n h
  have hn : (get_num_vars poly).getD 0 = n := by rw [h]; rfl
  refine ⟨?_, rfl⟩
  simp only [Prover.claim_sum, hn]
  rw [foldl_add_eq_sum, List.map_map, sum_map_range]
  exact Finset.sum_congr rfl fun b _ => by
    simp only [Function.comp_apply, evaluate_polynomial_on_hypercube]
    rw [foldl_mul_eq_prod]

/-- Witness for C2's general part at the concrete single-factor claim. -/
theorem C2_witness :
    get_num_vars [exF1] = some 2 ∧
      (Prover.claim_sum [exF1]).1 =
        ∑ b ∈ Finset.range (2 ^ 2),
          (([exF1] : ProductPolynomial F256).map (fun p =>
            p.evaluate (bit_string_to_vector (number_to_bit_string 2 b)))).prod :=
  ⟨by decide, (C2_claim_sum.1 F256 [exF1] 2 (by decide)).1⟩

/-- C6 (counterexample): on the spec's own two-factor fixture
(`f₁ = x₀ + 7`, `f₂ = 2x₀ + x₁`, m = 2 factors), `Prover::round_phase_1`
returns the per-factor pair list `[(14,16), (1,5)]` — m pairs, not a sequence
of m + 1 field elements (and in particular not `[14, 16]`). -/
theorem C6_cex :
    (Prover.round_phase_1 (Prover.claim_sum ([exF1, exF2] : ProductPolynomial F256)).2).1 =
        [((14 : F256), (16 : F256)), (1, 5)] ∧
      (Prover.round_phase_1 (Prover.claim_sum ([exF1, exF2] : ProductPolynomial F256)).2).1.length ≠
        ([exF1, exF2] : ProductPolynomial F256).length + 1 := by
  constructor
  · decide
  · decide

/-- C6 (amended): `round_phase_1` returns one pair per factor — for a state
whose table vectors all have length `m`, a list of exactly `m` pairs whose
`k`-th entry is the pair of partial sums
`(Σ_b table_k[0‖b], Σ_b table_k[1‖b])` of factor `k` over the remaining
points; on the two-factor fixture the message is `[(14,16), (1,5)]`. -/
theorem C6_round_phase_1_pairs :
    (∀ (F : Type) [CommRing F] (st : ProverState F) (m : ℕ), TUniform st.map m →
      (Prover.round_phase_1 st).1.length = m ∧
      ∀ i < m, (Prover.round_phase_1 st).1.getD i (0, 0) =
        (∑ b ∈ Finset.range (2 ^ (st.num_vars - st.last_round - 1)),
          (st.map (false :: number_to_bit_string (st.num_vars - st.last_round - 1) b)).getD i 0,
         ∑ b ∈ Finset.range (2 ^ (st.num_vars - st.last_round - 1)),
          (st.map (true :: number_to_bit_string (st.num_vars - st.last_round - 1) b)).getD i 0)) ∧
    (Prover.round_phase_1 (Prover.claim_sum ([exF1, exF2] : ProductPolynomial F256)).2).1 =
      [((14 : F256), (16 : F256)), (1, 5)] := by
  refine ⟨?_, by decide⟩
  intro F _ st m hT
  have h1 : (collapse_map (st.num_vars - st.last_round) st.map).1.length = m :=
    collapse_map_fst_length _ m _ hT
  have h2 : (collapse_map (st.num_vars - st.last_round) st.map).2.length = m :=
    collapse_map_snd_length _ m _ hT
  constructor
  · show ((collapse_map (st.num_vars - st.last_round) st.map).1.zip
      (collapse_map (st.num_vars - st.last_round) st.map).2).length = m
    rw [List.length_zip, h1, h2, min_self]
  · intro i hi
    show ((collapse_map (st.num_vars - st.last_round) st.map).1.zip
      (collapse_map (st.num_vars - st.last_round) st.map).2).getD i (0, 0) = _
    rw [show ((0 : F), (0 : F)) = ((fun a b => (a, b)) (0 : F) (0 : F)) from rfl]
    rw [show ((collapse_map (st.num_vars - st.last_round) st.map).1.zip
        (collapse_map (st.num_vars - st.last_round) st.map).2) =
      List.zipWith (fun a b => (a, b))
        (collapse_map (st.num_vars - st.last_round) st.map).1
        (collapse_map (st.num_vars - st.last_round) st.map).2 from rfl]
    rw [getD_zipWith _ 0 0 _ _ _ i (h1 ▸ hi) (h2 ▸ hi)]
    rw [collapse_map_fst_getD _ m _ hT i hi, collapse_map_snd_getD _ m _ hT i hi]

/-- Witness for C6's amended general part at the fixture state. -/
theorem C6_witness :
    TUniform (Prover.claim_sum ([exF1, exF2] : ProductPolynomial F256)).2.map 2 ∧
      (Prover.round_phase_1 (Prover.claim_sum ([exF1, exF2] : ProductPolynomial F256)).2).1.length = 2 :=
  ⟨fun _ => rfl,
    (C6_round_phase_1_pairs.1 F256 (Prover.claim_sum ([exF1, exF2] : ProductPolynomial F256)).2 2
      (fun _ => rfl)).1⟩



/-! ## The Lagrange-interpolation bridge -/

theorem castU16_eq {F : Type} [CommRing F] (j : ℕ) (h : j < 65536) :
    (castU16 j : F) = (j : F) := by
  rw [castU16, Nat.mod_eq_of_lt h]

theorem prod_filter_bne {M : Type*} [CommMonoid M] (n i : ℕ) (f : ℕ → M) :
    ((((List.range n).filter (fun j => i != j)).map f)).prod =
      ∏ j ∈ (Finset.range n).erase i, f j := by
  have h1 : (List.range n).filter (fun j => i != j) =
      (List.range n).filter (fun j => j != i) :=
    List.filter_congr (fun a _ => by
      rw [Bool.eq_iff_iff]
      simp only [bne_iff_ne, ne_eq]
      exact ne_comm)
  have h2 : (List.range n).erase i = (List.range n).filter (fun j => j != i) :=
    (List.nodup_range n).erase_eq_filter i
  rw [h1, ← h2]
  show ((List.range n).erase i |>.map f).prod = _
  rw [Finset.prod]
  congr 1

theorem zmod_castInjOn_range (p m : ℕ) (h : m < p) :
    Set.InjOn (Nat.cast : ℕ → ZMod p) (Finset.range (m + 1)) := by
  haveI : NeZero p := ⟨(lt_of_le_of_lt (Nat.zero_le m) h).ne'⟩
  intro a ha b hb hab
  simp only [Finset.coe_range, Set.mem_Iio] at ha hb
  have ha' : a < p := lt_of_lt_of_le ha (Nat.succ_le_of_lt h)
  have hb' : b < p := lt_of_lt_of_le hb (Nat.succ_le_of_lt h)
  calc a = ((a : ZMod p)).val := (ZMod.val_cast_of_lt ha').symm
    _ = ((b : ZMod p)).val := by rw [hab]
    _ = b := ZMod.val_cast_of_lt hb'

theorem evaluate_at_random_point_eq_interpolate {F : Type} [Field F]
    (msg : PolynomialDescription F) (m : ℕ) (hlen : msg.length = m + 1)
    (hm : m < 65536) (r : F) :
    Verifier.evaluate_at_random_point msg r =
      (Lagrange.interpolate (Finset.range (m + 1)) (Nat.cast : ℕ → F)
        (fun i => msg.getD i 0)).eval r := by
  have hk : msg.length - 1 + 1 = m + 1 := by omega
  rw [Verifier.evaluate_at_random_point]
  show (((List.range (msg.length - 1 + 1)).map _).foldl (· + ·) 0) = _
  rw [hk, foldl_add_eq_sum, sum_map_range, Lagrange.interpolate_apply,
    Polynomial.eval_finset_sum]
  refine Finset.sum_congr rfl fun i hi => ?_
  have hi' : i < 65536 := lt_of_lt_of_le (Finset.mem_range.mp hi) (by omega)
  rw [Polynomial.eval_mul, Polynomial.eval_C, foldl_mul_eq_prod, prod_filter_bne,
    Lagrange.basis, Polynomial.eval_prod]
  refine congrArg _ (Finset.prod_congr rfl fun j hj => ?_)
  have hj' : j < 65536 :=
    lt_of_lt_of_le (Finset.mem_range.mp (Finset.mem_of_mem_erase hj)) (by omega)
  rw [Lagrange.basisDivisor, Polynomial.eval_mul, Polynomial.eval_C,
    Polynomial.eval_sub, Polynomial.eval_X, Polynomial.eval_C,
    castU16_eq i hi', castU16_eq j hj', div_eq_mul_inv, mul_comm]

theorem evaluate_at_random_point_of_poly {F : Type} [Field F] (G : Polynomial F)
    (m : ℕ) (hdeg : G.degree < ((m + 1 : ℕ) : WithBot ℕ))
    (hinj : Set.InjOn (Nat.cast : ℕ → F) (Finset.range (m + 1)))
    (hm : m < 65536) (r : F) :
    Verifier.evaluate_at_random_point
        ((List.range (m + 1)).map (fun i => G.eval ((i : ℕ) : F))) r =
      G.eval r := by
  rw [evaluate_at_random_point_eq_interpolate _ m (by simp) hm r]
  have hv : Lagrange.interpolate (Finset.range (m + 1)) (Nat.cast : ℕ → F)
      (fun i => ((List.range (m + 1)).map (fun j => G.eval ((j : ℕ) : F))).getD i 0) =
    Lagrange.interpolate (Finset.range (m + 1)) (Nat.cast : ℕ → F)
      (fun i => G.eval ((i : ℕ) : F)) :=
    Lagrange.interpolate_eq_of_values_eq_on _ _ fun i hi =>
      getD_map_range 0 _ _ i (Finset.mem_range.mp hi)
  rw [hv, ← Lagrange.eq_interpolate hinj (by rw [Finset.card_range]; exact hdeg)]

/-- C5: on the successful branch, `Verifier::round` sets the new
`running_eval` to the value at `r` of the Lagrange interpolation through the
points `(0, message[0]), …, (m, message[m])` — the unique polynomial of degree
at most `m` through those points (it has degree `< m + 1` and passes through
every point, the nodes `0, …, m` being distinct since the field characteristic
exceeds `m`).  The hypothesis `m < 2^16` is the domain of the source's
`i as u16` node cast. -/
theorem C5_round_lagrange :
    ∀ (F : Type) [Field F] [DecidableEq F] (st : VerifierState F)
      (msg : PolynomialDescription F) (r : F) (m : ℕ),
      msg.length = m + 1 → m < 65536 →
      Set.InjOn (Nat.cast : ℕ → F) (Finset.range (m + 1)) →
      msg.getD 0 0 + msg.getD 1 0 = st.running_eval →
      ∃ st', Verifier.round st msg r = .ok (r, st') ∧
        st'.running_eval =
          (Lagrange.interpolate (Finset.range (m + 1)) (Nat.cast : ℕ → F)
            (fun i => msg.getD i 0)).eval r ∧
        (∀ i ∈ Finset.range (m + 1),
          (Lagrange.interpolate (Finset.range (m + 1)) (Nat.cast : ℕ → F)
            (fun i => msg.getD i 0)).eval ((i : ℕ) : F) = msg.getD i 0) ∧
        (Lagrange.interpolate (Finset.range (m + 1)) (Nat.cast : ℕ → F)
          (fun i => msg.getD i 0)).degree < ((m + 1 : ℕ) : WithBot ℕ) := by
  intro F _ _ st msg r m hlen hm hinj hok
  have hok' : msg[0]?.getD 0 + msg[1]?.getD 0 = st.running_eval := by
    simpa only [List.getD_eq_getElem?_getD] using hok
  refine
    ⟨{ st with
        last_round := st.last_round + 1,
        running_eval := Verifier.evaluate_at_random_point msg r,
        randomness := st.randomness ++ [r] },
      ?_, ?_, ?_, ?_⟩
  · simp only [Verifier.round, Verifier.evaluate_intermediate, List.getD_eq_getElem?_getD]
    rw [if_neg (by simp [hok'])]
  · exact (evaluate_at_random_point_eq_interpolate msg m hlen hm r)
  · exact fun i hi => Lagrange.eval_interpolate_at_node _ hinj hi
  · have h := Lagrange.degree_interpolate_lt (fun i => msg.getD i 0) hinj
    rwa [Finset.card_range] at h

/-- A verifier state over `F101` with `running_eval = 8`, used by the C5
witness. -/
theorem C5_witness :
    ([3, 5] : PolynomialDescription F101).length = 1 + 1 ∧ 1 < 65536 ∧
      Set.InjOn (Nat.cast : ℕ → F101) (Finset.range (1 + 1)) ∧
      ([3, 5] : PolynomialDescription F101).getD 0 0 +
          ([3, 5] : PolynomialDescription F101).getD 1 0 =
        vInit8.running_eval ∧
      ∃ st', Verifier.round vInit8 [3, 5] 7 = .ok (7, st') ∧
        st'.running_eval =
          (Lagrange.interpolate (Finset.range (1 + 1)) (Nat.cast : ℕ → F101)
            (fun i => ([3, 5] : PolynomialDescription F101).getD i 0)).eval 7 :=
  ⟨by decide, by decide, zmod_castInjOn_range 101 1 (by decide), by decide,
    match C5_round_lagrange F101 vInit8 [3, 5] 7 1 (by decide) (by decide)
      (zmod_castInjOn_range 101 1 (by decide)) (by decide) with
    | ⟨st', h1, h2, _, _⟩ => ⟨st', h1, h2⟩⟩



/-! ## Multilinear factors are affine in each coordinate -/

theorem getD_append_cons_self {F : Type} [CommRing F] (u w : List F) (r : F) :
    (u ++ r :: w).getD u.length 0 = r := by
  rw [List.getD_append_right _ _ _ _ (le_refl u.length), Nat.sub_self]
  rfl

theorem getD_append_cons_ne {F : Type} [CommRing F] (u w : List F) (r s : F) (v : ℕ)
    (hv : v ≠ u.length) :
    (u ++ r :: w).getD v 0 = (u ++ s :: w).getD v 0 := by
  rcases Nat.lt_or_ge v u.length with h | h
  · rw [List.getD_append _ _ _ _ h, List.getD_append _ _ _ _ h]
  · have h' : u.length < v := lt_of_le_of_ne h (Ne.symm hv)
    rw [List.getD_append_right _ _ _ _ h, List.getD_append_right _ _ _ _ h]
    obtain ⟨k, hk⟩ : ∃ k, v - u.length = k + 1 := ⟨v - u.length - 1, by omega⟩
    rw [hk]
    simp

theorem SparseTerm.evaluate_indep {F : Type} [CommRing F] (u w : List F) (r s : F) :
    ∀ (t : SparseTerm), u.length ∉ t.map Prod.fst →
      SparseTerm.evaluate t (u ++ r :: w) = SparseTerm.evaluate t (u ++ s :: w)
  | [], _ => rfl
  | vp :: t, h => by
      have h1 : vp.1 ≠ u.length := fun hc => h (by simp [← hc])
      have h2 : u.length ∉ t.map Prod.fst := fun hc => h (by simp [hc])
      show ((u ++ r :: w).getD vp.1 0) ^ vp.2 * (t.map _).prod =
        ((u ++ s :: w).getD vp.1 0) ^ vp.2 * (t.map _).prod
      rw [getD_append_cons_ne u w r s vp.1 (fun hc => h1 hc)]
      exact congrArg _ (SparseTerm.evaluate_indep u w r s t h2)

theorem SparseTerm.evaluate_affine {F : Type} [CommRing F] (u w : List F) :
    ∀ (t : SparseTerm), (t.map Prod.fst).Nodup → (∀ vp ∈ t, vp.2 ≤ 1) →
      ∃ a b : F, ∀ r : F, SparseTerm.evaluate t (u ++ r :: w) = a + b * r
  | [], _, _ => ⟨1, 0, fun r => by simp [SparseTerm.evaluate]⟩
  | vp :: t, hnd, hpw => by
      have hnd' : (t.map Prod.fst).Nodup := (List.nodup_cons.mp (by simpa using hnd)).2
      have hv : vp.1 ∉ t.map Prod.fst := (List.nodup_cons.mp (by simpa using hnd)).1
      have hpw' : ∀ vq ∈ t, vq.2 ≤ 1 := fun vq hq => hpw vq (List.mem_cons_of_mem _ hq)
      by_cases hveq : vp.1 = u.length
      · -- the variable being fixed: the tail does not mention it
        have hind : ∀ r : F, SparseTerm.evaluate t (u ++ r :: w) =
            SparseTerm.evaluate t (u ++ (0 : F) :: w) := fun r =>
          SparseTerm.evaluate_indep u w r 0 t (hveq ▸ hv)
        rcases Nat.le_one_iff_eq_zero_or_eq_one.mp (hpw vp (List.mem_cons_self vp t)) with h0 | h1
        · refine ⟨SparseTerm.evaluate t (u ++ (0 : F) :: w), 0, fun r => ?_⟩
          show ((u ++ r :: w).getD vp.1 0) ^ vp.2 * SparseTerm.evaluate t (u ++ r :: w) = _
          rw [h0, pow_zero, one_mul, hind r, zero_mul, add_zero]
        · refine ⟨0, SparseTerm.evaluate t (u ++ (0 : F) :: w), fun r => ?_⟩
          show ((u ++ r :: w).getD vp.1 0) ^ vp.2 * SparseTerm.evaluate t (u ++ r :: w) = _
          rw [h1, pow_one, hveq, getD_append_cons_self, hind r, zero_add, mul_comm]
      · -- another coordinate: the head factor is constant in r
        obtain ⟨a, b, hab⟩ := SparseTerm.evaluate_affine u w t hnd' hpw'
        refine ⟨((u ++ (0 : F) :: w).getD vp.1 0) ^ vp.2 * a,
          ((u ++ (0 : F) :: w).getD vp.1 0) ^ vp.2 * b, fun r => ?_⟩
        show ((u ++ r :: w).getD vp.1 0) ^ vp.2 * SparseTerm.evaluate t (u ++ r :: w) = _
        rw [getD_append_cons_ne u w r 0 vp.1 hveq, hab r]
        ring

theorem SparsePolynomial.terms_affine {F : Type} [CommRing F] (u w : List F) :
    ∀ (l : List (F × SparseTerm)), (∀ ct ∈ l, SparseTerm.Multilinear ct.2) →
      ∃ a b : F, ∀ r : F,
        (l.map (fun ct => ct.1 * SparseTerm.evaluate ct.2 (u ++ r :: w))).sum = a + b * r
  | [], _ => ⟨0, 0, fun r => by simp⟩
  | ct :: l, h => by
      obtain ⟨hnd, hpw⟩ := h ct (List.mem_cons_self ct l)
      obtain ⟨a1, b1, h1⟩ := SparseTerm.evaluate_affine u w ct.2 hnd hpw
      obtain ⟨a2, b2, h2⟩ := SparsePolynomial.terms_affine u w l
        (fun ct' hct' => h ct' (List.mem_cons_of_mem _ hct'))
      refine ⟨ct.1 * a1 + a2, ct.1 * b1 + b2, fun r => ?_⟩
      rw [List.map_cons, List.sum_cons, h1 r, h2 r]
      ring

theorem SparsePolynomial.evaluate_collapse {F : Type} [CommRing F]
    (p : SparsePolynomial F) (hp : p.Multilinear) (u w : List F) (r : F) :
    p.evaluate (u ++ r :: w) =
      (1 - r) * p.evaluate (u ++ (0 : F) :: w) + r * p.evaluate (u ++ (1 : F) :: w) := by
  obtain ⟨a, b, hab⟩ := SparsePolynomial.terms_affine u w p.terms hp
  show (p.terms.map _).sum = (1 - r) * (p.terms.map _).sum + r * (p.terms.map _).sum
  rw [hab r, hab 0, hab 1]
  ring



/-! ## The round polynomial of a table -/

theorem exists_of_mem_zipWith {α β γ : Type*} {f : α → β → γ} :
    ∀ {l1 : List α} {l2 : List β} {x : γ}, x ∈ List.zipWith f l1 l2 → ∃ a b, x = f a b
  | a :: l1, b :: l2, x, h => by
      rcases List.mem_cons.mp (by simpa using h) with h | h
      · exact ⟨a, b, h⟩
      · exact exists_of_mem_zipWith h
  | [], _, _, h => absurd h (by simp)
  | _ :: _, [], _, h => absurd h (by simp)

theorem roundGT_eval {F : Type} [CommRing F] (T : Table F) (w : ℕ) (x : F) :
    (roundGT T w).eval x =
      ∑ b ∈ Finset.range (2 ^ (w - 1)),
        (List.zipWith (fun a0 a1 => (1 - x) * a0 + x * a1)
          (T (false :: number_to_bit_string (w - 1) b))
          (T (true :: number_to_bit_string (w - 1) b))).prod := by
  rw [roundGT, Polynomial.eval_finset_sum]
  refine Finset.sum_congr rfl fun b _ => ?_
  rw [Polynomial.eval_list_prod, List.map_zipWith]
  refine congrArg List.prod ?_
  have hfun : (fun a0 a1 : F => Polynomial.eval x
      ((1 - Polynomial.X) * Polynomial.C a0 + Polynomial.X * Polynomial.C a1)) =
      fun a0 a1 : F => (1 - x) * a0 + x * a1 := by
    funext a0 a1
    simp only [Polynomial.eval_add, Polynomial.eval_mul, Polynomial.eval_sub,
      Polynomial.eval_one, Polynomial.eval_X, Polynomial.eval_C]
  rw [hfun]

theorem roundGT_degree_lt {F : Type} [CommRing F] (T : Table F) (w m : ℕ)
    (hT : TUniform T m) :
    (roundGT T w).degree < ((m + 1 : ℕ) : WithBot ℕ) := by
  have hone : ∀ a0 a1 : F, ((1 - Polynomial.X) * Polynomial.C a0 +
      Polynomial.X * Polynomial.C a1).natDegree ≤ 1 := by
    intro a0 a1
    refine le_trans (Polynomial.natDegree_add_le _ _) (max_le ?_ ?_)
    · refine le_trans (Polynomial.natDegree_mul_le) ?_
      rw [Polynomial.natDegree_C, Nat.add_zero]
      exact le_trans (Polynomial.natDegree_sub_le _ _)
        (by simp [Polynomial.natDegree_one, Polynomial.natDegree_X_le])
    · refine le_trans (Polynomial.natDegree_mul_le) ?_
      rw [Polynomial.natDegree_C, Nat.add_zero]
      exact Polynomial.natDegree_X_le
  have hnat : (roundGT T w).natDegree ≤ m := by
    refine Polynomial.natDegree_sum_le_of_forall_le _ _ fun b _ => ?_
    refine le_trans (Polynomial.natDegree_list_prod_le _) ?_
    set l := List.zipWith
      (fun a0 a1 => (1 - Polynomial.X) * Polynomial.C a0 + Polynomial.X * Polynomial.C a1)
      (T (false :: number_to_bit_string (w - 1) b))
      (T (true :: number_to_bit_string (w - 1) b)) with hl
    have hlen : l.length = m := by
      rw [hl, List.length_zipWith, hT, hT, min_self]
    have hmem : ∀ x ∈ l.map Polynomial.natDegree, x ≤ 1 := by
      intro x hx
      obtain ⟨q, hq, rfl⟩ := List.mem_map.mp hx
      obtain ⟨a0, a1, rfl⟩ := exists_of_mem_zipWith (hl ▸ hq)
      exact hone a0 a1
    calc (l.map Polynomial.natDegree).sum ≤ (l.map Polynomial.natDegree).length • 1 :=
          List.sum_le_card_nsmul _ 1 hmem
      _ = l.length := by rw [List.length_map, smul_eq_mul, mul_one]
      _ = m := hlen
  calc (roundGT T w).degree ≤ ((roundGT T w).natDegree : WithBot ℕ) :=
        Polynomial.degree_le_natDegree
    _ ≤ (m : WithBot ℕ) := by exact_mod_cast hnat
    _ < ((m + 1 : ℕ) : WithBot ℕ) := by exact_mod_cast Nat.lt_succ_self m

theorem round_phase_1_poly_eq {F : Type} [CommRing F] (T : Table F) (m a n : ℕ)
    (hT : TUniform T m) :
    (Prover.round_phase_1_poly (⟨a, n, T⟩ : ProverState F)).1 =
      (List.range (m + 1)).map (fun j => (roundGT T (n - a)).eval ((j : ℕ) : F)) := by
  have hm : (T (number_to_bit_string (n - a) 0)).length = m := hT _
  simp only [Prover.round_phase_1_poly, hm]
  refine List.map_congr_left fun j _ => ?_
  rw [roundGT_eval, foldl_add_eq_sum, sum_map_range]
  exact Finset.sum_congr rfl fun b _ => by rw [foldl_mul_eq_prod]

theorem round_message_intermediate {F : Type} [CommRing F] (T : Table F) (m w : ℕ)
    (hT : TUniform T m) (hm : 1 ≤ m) :
    Verifier.evaluate_intermediate
        ((List.range (m + 1)).map (fun j => (roundGT T (w + 1)).eval ((j : ℕ) : F))) =
      tableSumT T (w + 1) := by
  rw [Verifier.evaluate_intermediate,
    getD_map_range 0 _ _ 0 (by omega), getD_map_range 0 _ _ 1 (by omega),
    tableSumT_succ]
  congr 1
  · rw [Nat.cast_zero, roundGT_eval]
    simp only [Nat.add_sub_cancel]
    refine Finset.sum_congr rfl fun b _ => ?_
    rw [show (fun a0 a1 : F => (1 - 0) * a0 + 0 * a1) = fun a0 _ : F => a0 by
        funext a0 a1; ring,
      zipWith_fst _ _ (by rw [hT, hT])]
  · rw [Nat.cast_one, roundGT_eval]
    simp only [Nat.add_sub_cancel]
    refine Finset.sum_congr rfl fun b _ => ?_
    rw [show (fun a0 a1 : F => (1 - 1) * a0 + 1 * a1) = fun _ a1 : F => a1 by
        funext a0 a1; ring,
      zipWith_snd _ _ (by rw [hT, hT])]

theorem roundGT_eval_reduce {F : Type} [CommRing F] (T : Table F) (w : ℕ) (r : F) :
    (roundGT T (w + 1)).eval r = tableSumT (reduce_map w r T) w := by
  rw [roundGT_eval, tableSumT]
  simp only [Nat.add_sub_cancel]
  refine Finset.sum_congr rfl fun b _ => ?_
  show _ = (List.zipWith (fun a0 a1 => a0 - r * a0 + r * a1) _ _).prod
  rw [show (fun a0 a1 : F => a0 - r * a0 + r * a1) =
      fun a0 a1 : F => (1 - r) * a0 + r * a1 by funext a0 a1; ring]

theorem reduce_map_uniform {F : Type} [CommRing F] (T : Table F) (m k : ℕ) (r : F)
    (hT : TUniform T m) : TUniform (reduce_map k r T) m := fun bs => by
  show (List.zipWith _ (T (false :: bs)) (T (true :: bs))).length = m
  rw [List.length_zipWith, hT, hT, min_self]

theorem hTable_uniform {F : Type} [CommRing F] (poly : ProductPolynomial F) (rs : List F) :
    TUniform (hTable poly rs) poly.length := fun _ => List.length_map _ _

theorem eph_eq_hTable {F : Type} [CommRing F] (poly : ProductPolynomial F) (n : ℕ) :
    evaluate_polynomial_on_hypercube poly n = hTable poly [] := rfl

theorem claim_sum_fst_eq {F : Type} [CommRing F] (poly : ProductPolynomial F) (n : ℕ)
    (h : get_num_vars poly = some n) :
    (Prover.claim_sum poly).1 = tableSumT (evaluate_polynomial_on_hypercube poly n) n := by
  have hn : (get_num_vars poly).getD 0 = n := by rw [h]; rfl
  simp only [Prover.claim_sum, hn, tableSumT]
  rw [foldl_add_eq_sum, List.map_map, sum_map_range]
  exact Finset.sum_congr rfl fun b _ => by
    simp only [Function.comp_apply]
    rw [foldl_mul_eq_prod]

theorem reduce_hTable {F : Type} [CommRing F] (poly : ProductPolynomial F)
    (hml : ∀ p ∈ poly, p.Multilinear) (rs : List F) (r : F) (k : ℕ) :
    reduce_map k r (hTable poly rs) = hTable poly (rs ++ [r]) := by
  funext bs
  show List.zipWith _ (poly.map _) (poly.map _) = poly.map _
  rw [zipWith_map_same]
  refine List.map_congr_left fun p hp => ?_
  have hc := SparsePolynomial.evaluate_collapse p (hml p hp) rs (bit_string_to_vector bs) r
  show p.evaluate (rs ++ bit_string_to_vector (false :: bs)) -
      r * p.evaluate (rs ++ bit_string_to_vector (false :: bs)) +
      r * p.evaluate (rs ++ bit_string_to_vector (true :: bs)) =
    p.evaluate (rs ++ [r] ++ bit_string_to_vector bs)
  have hf : (bit_string_to_vector (false :: bs) : List F) =
      0 :: bit_string_to_vector bs := rfl
  have ht : (bit_string_to_vector (true :: bs) : List F) =
      1 :: bit_string_to_vector bs := rfl
  have happ : rs ++ [r] ++ (bit_string_to_vector bs : List F) =
      rs ++ r :: bit_string_to_vector bs := by
    rw [List.append_assoc]
    rfl
  rw [hf, ht, happ, hc]
  ring



/-! ## The honest run accepts -/

theorem loop_accept {F : Type} [Field F] [DecidableEq F] (poly : ProductPolynomial F)
    (hml : ∀ p ∈ poly, p.Multilinear) (hm1 : 1 ≤ poly.length)
    (hms : poly.length < 65536)
    (hinj : Set.InjOn (Nat.cast : ℕ → F) (Finset.range (poly.length + 1)))
    (rand : ℕ → F) :
    ∀ (fuel : ℕ) (pref : List F) (i0 ℓ : ℕ) (cs : F),
      (orchestrate_loop rand fuel i0
          (⟨pref.length, pref.length + fuel, hTable poly pref⟩ : ProverState F)
          (⟨ℓ, poly.length, poly, cs, tableSumT (hTable poly pref) fuel, pref⟩ :
            VerifierState F)).accept = true ∧
      (orchestrate_loop rand fuel i0
          (⟨pref.length, pref.length + fuel, hTable poly pref⟩ : ProverState F)
          (⟨ℓ, poly.length, poly, cs, tableSumT (hTable poly pref) fuel, pref⟩ :
            VerifierState F))._randomness.length = pref.length + fuel := by
  intro fuel
  induction fuel with
  | zero =>
      intro pref i0 ℓ cs
      constructor
      · show (Verifier.sanity_check _).1 = true
        refine decide_eq_true ?_
        show evaluate_mvml_polynomial poly pref = tableSumT (hTable poly pref) 0
        rw [evaluate_mvml_polynomial, evaluate_mvml, foldl_mul_eq_prod, tableSumT,
          pow_zero, Finset.sum_range_one]
        show _ = (poly.map (fun p => p.evaluate (pref ++ bit_string_to_vector
          (number_to_bit_string 0 0)))).prod
        rw [show (bit_string_to_vector (number_to_bit_string 0 0) : List F) = [] from rfl,
          List.append_nil]
      · show pref.length = pref.length + 0
        rw [Nat.add_zero]
  | succ fuel ih =>
      intro pref i0 ℓ cs
      have hT : TUniform (hTable poly pref) poly.length := hTable_uniform poly pref
      set r := rand i0 with hr
      set ps : ProverState F :=
        ⟨pref.length, pref.length + (fuel + 1), hTable poly pref⟩ with hps
      set vs : VerifierState F :=
        ⟨ℓ, poly.length, poly, cs, tableSumT (hTable poly pref) (fuel + 1), pref⟩ with hvs
      have hmsg := round_phase_1_poly_eq (hTable poly pref) poly.length pref.length
        (pref.length + (fuel + 1)) hT
      rw [show pref.length + (fuel + 1) - pref.length = fuel + 1 by omega] at hmsg
      have hint : Verifier.evaluate_intermediate (Prover.round_phase_1_poly ps).1 =
          tableSumT (hTable poly pref) (fuel + 1) := by
        rw [hps, hmsg]
        exact round_message_intermediate (hTable poly pref) poly.length fuel hT hm1
      have heval : Verifier.evaluate_at_random_point (Prover.round_phase_1_poly ps).1 r =
          tableSumT (hTable poly (pref ++ [r])) fuel := by
        rw [hps, hmsg,
          evaluate_at_random_point_of_poly (roundGT (hTable poly pref) (fuel + 1))
            poly.length (roundGT_degree_lt _ _ _ hT) hinj hms r,
          roundGT_eval_reduce, reduce_hTable poly hml pref r fuel]
      have hround : Verifier.round vs (Prover.round_phase_1_poly ps).1 r =
          .ok (r, { vs with
            last_round := vs.last_round + 1,
            running_eval := Verifier.evaluate_at_random_point (Prover.round_phase_1_poly ps).1 r,
            randomness := vs.randomness ++ [r] }) := by
        simp only [Verifier.round]
        rw [if_neg (by rw [hint]; exact not_not_intro rfl)]
      have hps' : Prover.round_phase_2 (Prover.round_phase_1_poly ps).2 r =
          (⟨(pref ++ [r]).length, (pref ++ [r]).length + fuel,
            hTable poly (pref ++ [r])⟩ : ProverState F) := by
        show Prover.round_phase_2 ps r = _
        simp only [Prover.round_phase_2, hps]
        congr 1
        · simp
        · simp only [List.length_append, List.length_cons, List.length_nil]
          omega
        · rw [show pref.length + (fuel + 1) - pref.length - 1 = fuel by omega,
            reduce_hTable poly hml pref r fuel]
      have hvs' : ({ vs with
            last_round := vs.last_round + 1,
            running_eval := Verifier.evaluate_at_random_point (Prover.round_phase_1_poly ps).1 r,
            randomness := vs.randomness ++ [r] } : VerifierState F) =
          (⟨ℓ + 1, poly.length, poly, cs, tableSumT (hTable poly (pref ++ [r])) fuel,
            pref ++ [r]⟩ : VerifierState F) := by
        rw [heval]
      have hstep : orchestrate_loop rand (fuel + 1) i0 ps vs =
          orchestrate_loop rand fuel (i0 + 1)
            (⟨(pref ++ [r]).length, (pref ++ [r]).length + fuel,
              hTable poly (pref ++ [r])⟩ : ProverState F)
            (⟨ℓ + 1, poly.length, poly, cs, tableSumT (hTable poly (pref ++ [r])) fuel,
              pref ++ [r]⟩ : VerifierState F) := by
        have h0 : orchestrate_loop rand (fuel + 1) i0 ps vs =
            orchestrate_loop rand fuel (i0 + 1)
              (Prover.round_phase_2 (Prover.round_phase_1_poly ps).2 r)
              ({ vs with
                last_round := vs.last_round + 1,
                running_eval :=
                  Verifier.evaluate_at_random_point (Prover.round_phase_1_poly ps).1 r,
                randomness := vs.randomness ++ [r] }) := by
          show (match Verifier.round vs (Prover.round_phase_1_poly ps).1 (rand i0) with
              | .ok (c, state) =>
                  orchestrate_loop rand fuel (i0 + 1)
                    (Prover.round_phase_2 (Prover.round_phase_1_poly ps).2 c) state
              | .error _ => { _randomness := [], accept := false }) = _
          rw [← hr, hround]
        rw [h0, hps', hvs']
      refine ⟨?_, ?_⟩
      · rw [hstep]
        exact (ih (pref ++ [r]) (i0 + 1) (ℓ + 1) cs).1
      · rw [hstep, (ih (pref ++ [r]) (i0 + 1) (ℓ + 1) cs).2]
        simp only [List.length_append, List.length_cons, List.length_nil]
        omega



theorem claim_sum_snd_eq {F : Type} [CommRing F] (poly : ProductPolynomial F) :
    (Prover.claim_sum poly).2 =
      (⟨0, (get_num_vars poly).getD 0, hTable poly []⟩ : ProverState F) :=
  rfl

/-- C1: completeness — for a `ProductClaim` of genuinely multilinear factors
sharing variable count `n` (a successfully constructed claim), the claimed sum
computed by `setup_protocol` being the true hypercube sum, the orchestrated
run accepts with a randomness vector of length `n`, for every choice of the
`n` verifier challenges.  The hypotheses `poly.length < 2^16` and the
injectivity of `ℕ → F` on `{0,…,m}` encode the source's fixed field (a 255-bit
prime characteristic, far above any factor count) and its `u16` node cast. -/
theorem C1_completeness :
    ∀ (F : Type) [Field F] [DecidableEq F] (poly : ProductPolynomial F) (n : ℕ)
      (cs : F) (ps : ProverState F) (vs : VerifierState F) (rand : ℕ → F),
      (∀ p ∈ poly, p.Multilinear) → poly.length < 65536 →
      Set.InjOn (Nat.cast : ℕ → F) (Finset.range (poly.length + 1)) →
      setup_protocol poly = some (n, cs, ps, vs) →
      (orchestrate_protocol n cs ps vs rand).accept = true ∧
      (orchestrate_protocol n cs ps vs rand)._randomness.length = n := by
  intro F _ _ poly n cs ps vs rand hml hms hinj hsetup
  unfold setup_protocol at hsetup
  cases hg : get_num_vars poly with
  | none =>
      rw [hg] at hsetup
      cases hsetup
  | some n' =>
      rw [hg] at hsetup
      simp only [Option.some.injEq, Prod.mk.injEq] at hsetup
      obtain ⟨hn, hcs, hps, hvs⟩ := hsetup
      subst hn
      subst hcs
      subst hps
      subst hvs
      have hm1 : 1 ≤ poly.length := by
        cases poly with
        | nil => simp [get_num_vars] at hg
        | cons a l => simp
      have hgd : (get_num_vars poly).getD 0 = n' := by rw [hg]; rfl
      have hcseq : (Prover.claim_sum poly).1 = tableSumT (hTable poly []) n' := by
        rw [claim_sum_fst_eq poly n' hg, eph_eq_hTable]
      have hla := loop_accept poly hml hm1 hms hinj rand n' [] 0 0
        ((Prover.claim_sum poly).1)
      rw [List.length_nil, Nat.zero_add, ← hcseq] at hla
      have hps2 : (Prover.claim_sum poly).2 =
          (⟨0, n', hTable poly []⟩ : ProverState F) := by
        rw [claim_sum_snd_eq, hgd]
      show (orchestrate_loop rand n' 0 (Prover.claim_sum poly).2
          ( Verifier.initialize poly (Prover.claim_sum poly).1)).accept = true ∧
        (orchestrate_loop rand n' 0 (Prover.claim_sum poly).2
          ( Verifier.initialize poly (Prover.claim_sum poly).1))._randomness.length = n'
      rw [hps2]
      exact hla



/-- Witness for C1 at the concrete single-factor claim `x₀ + 7` over `F101`
with the zero challenge sequence. -/
theorem C1_witness :
    (∀ p ∈ ([exG1] : ProductPolynomial F101), p.Multilinear) ∧
      ([exG1] : ProductPolynomial F101).length < 65536 ∧
      setup_protocol ([exG1] : ProductPolynomial F101) =
        some (2, (Prover.claim_sum [exG1]).1, (Prover.claim_sum [exG1]).2,
          Verifier.initialize [exG1] (Prover.claim_sum [exG1]).1) ∧
      (orchestrate_protocol 2 (Prover.claim_sum [exG1]).1 (Prover.claim_sum [exG1]).2
          ( Verifier.initialize [exG1] (Prover.claim_sum [exG1]).1)
          (fun _ => 0)).accept = true ∧
      (orchestrate_protocol 2 (Prover.claim_sum [exG1]).1 (Prover.claim_sum [exG1]).2
          ( Verifier.initialize [exG1] (Prover.claim_sum [exG1]).1)
          (fun _ => 0))._randomness.length = 2 :=
  ⟨by decide, by decide, rfl,
    (C1_completeness F101 [exG1] 2 (Prover.claim_sum [exG1]).1 (Prover.claim_sum [exG1]).2
      ( Verifier.initialize [exG1] (Prover.claim_sum [exG1]).1) (fun _ => 0) (by decide)
      (by decide) (zmod_castInjOn_range 101 1 (by decide)) rfl).1,
    (C1_completeness F101 [exG1] 2 (Prover.claim_sum [exG1]).1 (Prover.claim_sum [exG1]).2
      ( Verifier.initialize [exG1] (Prover.claim_sum [exG1]).1) (fun _ => 0) (by decide)
      (by decide) (zmod_castInjOn_range 101 1 (by decide)) rfl).2⟩

/-! ## No round after the first can be the first to fail -/

theorem loop_no_failure {F : Type} [Field F] [DecidableEq F] (m : ℕ)
    (hm1 : 1 ≤ m) (hms : m < 65536)
    (hinj : Set.InjOn (Nat.cast : ℕ → F) (Finset.range (m + 1))) (rand : ℕ → F) :
    ∀ (fuel : ℕ) (i0 a ℓ np : ℕ) (pp : ProductPolynomial F) (cs : F) (rnd : List F)
      (T : Table F), TUniform T m →
      first_failure rand fuel i0 (⟨a, a + fuel, T⟩ : ProverState F)
        (⟨ℓ, np, pp, cs, tableSumT T fuel, rnd⟩ : VerifierState F) = none := by
  intro fuel
  induction fuel with
  | zero => intros; rfl
  | succ fuel ih =>
      intro i0 a ℓ np pp cs rnd T hT
      set r := rand i0 with hr
      set ps : ProverState F := ⟨a, a + (fuel + 1), T⟩ with hps
      set vs : VerifierState F := ⟨ℓ, np, pp, cs, tableSumT T (fuel + 1), rnd⟩ with hvs
      have hmsg := round_phase_1_poly_eq T m a (a + (fuel + 1)) hT
      rw [show a + (fuel + 1) - a = fuel + 1 by omega] at hmsg
      have hint : Verifier.evaluate_intermediate (Prover.round_phase_1_poly ps).1 =
          tableSumT T (fuel + 1) := by
        rw [hps, hmsg]
        exact round_message_intermediate T m fuel hT hm1
      have heval : Verifier.evaluate_at_random_point (Prover.round_phase_1_poly ps).1 r =
          tableSumT (reduce_map fuel r T) fuel := by
        rw [hps, hmsg,
          evaluate_at_random_point_of_poly (roundGT T (fuel + 1)) m
            (roundGT_degree_lt T (fuel + 1) m hT) hinj hms r,
          roundGT_eval_reduce]
      have hround : Verifier.round vs (Prover.round_phase_1_poly ps).1 r =
          .ok (r, { vs with
            last_round := vs.last_round + 1,
            running_eval := Verifier.evaluate_at_random_point (Prover.round_phase_1_poly ps).1 r,
            randomness := vs.randomness ++ [r] }) := by
        simp only [Verifier.round]
        rw [if_neg (by rw [hint]; exact not_not_intro rfl)]
      have hps' : Prover.round_phase_2 (Prover.round_phase_1_poly ps).2 r =
          (⟨a + 1, (a + 1) + fuel, reduce_map fuel r T⟩ : ProverState F) := by
        show Prover.round_phase_2 ps r = _
        simp only [Prover.round_phase_2, hps]
        rw [show a + (fuel + 1) - a - 1 = fuel by omega,
          show a + (fuel + 1) = (a + 1) + fuel by omega]
      have hvs' : ({ vs with
            last_round := vs.last_round + 1,
            running_eval := Verifier.evaluate_at_random_point (Prover.round_phase_1_poly ps).1 r,
            randomness := vs.randomness ++ [r] } : VerifierState F) =
          (⟨ℓ + 1, np, pp, cs, tableSumT (reduce_map fuel r T) fuel, rnd ++ [r]⟩ :
            VerifierState F) := by
        rw [heval]
      have h0 : first_failure rand (fuel + 1) i0 ps vs =
          first_failure rand fuel (i0 + 1)
            (Prover.round_phase_2 (Prover.round_phase_1_poly ps).2 r)
            ({ vs with
              last_round := vs.last_round + 1,
              running_eval :=
                Verifier.evaluate_at_random_point (Prover.round_phase_1_poly ps).1 r,
              randomness := vs.randomness ++ [r] }) := by
        show (match Verifier.round vs (Prover.round_phase_1_poly ps).1 (rand i0) with
            | .ok (c, state) =>
                first_failure rand fuel (i0 + 1)
                  (Prover.round_phase_2 (Prover.round_phase_1_poly ps).2 c) state
            | .error _ => some (i0 + 1)) = _
        rw [← hr, hround]
      rw [h0, hps', hvs']
      exact ih (i0 + 1) (a + 1) (ℓ + 1) np pp cs (rnd ++ [r]) (reduce_map fuel r T)
        (reduce_map_uniform T m fuel r hT)

/-- C7: early-rejection shape — in any orchestrated run on a constructed
claim, if round `i` (1-indexed) is the first whose consistency check fails,
the transcript has `accept = false` and a randomness vector of length exactly
`i − 1`.  (With this prover only `i = 1` is realizable — every later round's
message reconstructs the verifier's running target by construction — and the
orchestrator then returns the empty vector, of length `0 = i − 1`.) -/
theorem C7_early_rejection :
    ∀ (F : Type) [Field F] [DecidableEq F] (poly : ProductPolynomial F) (n : ℕ)
      (vs : VerifierState F) (rand : ℕ → F) (i : ℕ),
      get_num_vars poly = some n → poly.length < 65536 →
      Set.InjOn (Nat.cast : ℕ → F) (Finset.range (poly.length + 1)) →
      first_failure rand n 0 (Prover.claim_sum poly).2 vs = some i →
      (orchestrate_protocol n vs.claimed_sum (Prover.claim_sum poly).2 vs rand).accept =
          false ∧
      (orchestrate_protocol n vs.claimed_sum (Prover.claim_sum poly).2 vs
          rand)._randomness.length = i - 1 := by
  intro F _ _ poly n vs rand i hg hms hinj hfail
  have hm1 : 1 ≤ poly.length := by
    cases poly with
    | nil => simp [get_num_vars] at hg
    | cons a l => simp
  have hgd : (get_num_vars poly).getD 0 = n := by rw [hg]; rfl
  have hps : (Prover.claim_sum poly).2 = (⟨0, n, hTable poly []⟩ : ProverState F) := by
    rw [claim_sum_snd_eq, hgd]
  cases n with
  | zero =>
      rw [show first_failure rand 0 0 (Prover.claim_sum poly).2 vs = none from rfl] at hfail
      cases hfail
  | succ n =>
      have hT : TUniform (hTable poly []) poly.length := hTable_uniform poly []
      set ps := (Prover.claim_sum poly).2 with hpsdef
      have hmsg' := round_phase_1_poly_eq (hTable poly []) poly.length 0 (n + 1) hT
      rw [Nat.sub_zero] at hmsg'
      have hmsg : (Prover.round_phase_1_poly ps).1 =
          (List.range (poly.length + 1)).map
            (fun j => (roundGT (hTable poly []) (n + 1)).eval ((j : ℕ) : F)) := by
        rw [hps]
        exact hmsg'
      by_cases hcond :
        Verifier.evaluate_intermediate (Prover.round_phase_1_poly ps).1 ≠ vs.running_eval
      · -- the very first round fails: the orchestrator returns ⟨[], false⟩
        have hround : Verifier.round vs (Prover.round_phase_1_poly ps).1 (rand 0) =
            .error (RejectError.new "Rejecting the Prover claim!") := by
          simp only [Verifier.round]
          rw [if_pos hcond]
        have h1 : first_failure rand (n + 1) 0 ps vs = some 1 := by
          show (match Verifier.round vs (Prover.round_phase_1_poly ps).1 (rand 0) with
              | .ok (c, state) =>
                  first_failure rand n (0 + 1)
                    (Prover.round_phase_2 (Prover.round_phase_1_poly ps).2 c) state
              | .error _ => some (0 + 1)) = some 1
          rw [hround]
        have hi : i = 1 := by
          rw [h1] at hfail
          exact (Option.some.inj hfail).symm
        have h2 : orchestrate_loop rand (n + 1) 0 ps vs =
            ({ _randomness := [], accept := false } : ProtocolTranscript F) := by
          show (match Verifier.round vs (Prover.round_phase_1_poly ps).1 (rand 0) with
              | .ok (c, state) =>
                  orchestrate_loop rand n (0 + 1)
                    (Prover.round_phase_2 (Prover.round_phase_1_poly ps).2 c) state
              | .error _ => { _randomness := [], accept := false }) = _
          rw [hround]
        constructor
        · show (orchestrate_loop rand (n + 1) 0 ps vs).accept = false
          rw [h2]
        · show (orchestrate_loop rand (n + 1) 0 ps vs)._randomness.length = i - 1
          rw [h2, hi]
          rfl
      · -- the first round passes: no later round can fail, contradiction
        rw [not_not] at hcond
        have hround : Verifier.round vs (Prover.round_phase_1_poly ps).1 (rand 0) =
            .ok (rand 0, { vs with
              last_round := vs.last_round + 1,
              running_eval :=
                Verifier.evaluate_at_random_point (Prover.round_phase_1_poly ps).1 (rand 0),
              randomness := vs.randomness ++ [rand 0] }) := by
          simp only [Verifier.round]
          rw [if_neg (by rw [hcond]; exact not_not_intro rfl)]
        have heval :
            Verifier.evaluate_at_random_point (Prover.round_phase_1_poly ps).1 (rand 0) =
              tableSumT (reduce_map n (rand 0) (hTable poly [])) n := by
          rw [hmsg,
            evaluate_at_random_point_of_poly (roundGT (hTable poly []) (n + 1)) poly.length
              (roundGT_degree_lt _ _ _ hT) hinj hms (rand 0),
            roundGT_eval_reduce]
        have hps2 : Prover.round_phase_2 (Prover.round_phase_1_poly ps).2 (rand 0) =
            (⟨1, 1 + n, reduce_map n (rand 0) (hTable poly [])⟩ : ProverState F) := by
          show Prover.round_phase_2 ps (rand 0) = _
          rw [hps]
          simp only [Prover.round_phase_2]
          rw [show n + 1 - 0 - 1 = n by omega, show n + 1 = 1 + n by omega]
        have hvs2 : ({ vs with
              last_round := vs.last_round + 1,
              running_eval :=
                Verifier.evaluate_at_random_point (Prover.round_phase_1_poly ps).1 (rand 0),
              randomness := vs.randomness ++ [rand 0] } : VerifierState F) =
            (⟨vs.last_round + 1, vs.num_polys, vs.poly, vs.claimed_sum,
              tableSumT (reduce_map n (rand 0) (hTable poly [])) n,
              vs.randomness ++ [rand 0]⟩ : VerifierState F) := by
          rw [heval]
        have h1a : first_failure rand (n + 1) 0 ps vs =
            first_failure rand n (0 + 1)
              (Prover.round_phase_2 (Prover.round_phase_1_poly ps).2 (rand 0))
              ({ vs with
                last_round := vs.last_round + 1,
                running_eval :=
                  Verifier.evaluate_at_random_point (Prover.round_phase_1_poly ps).1 (rand 0),
                randomness := vs.randomness ++ [rand 0] }) := by
          show (match Verifier.round vs (Prover.round_phase_1_poly ps).1 (rand 0) with
              | .ok (c, state) =>
                  first_failure rand n (0 + 1)
                    (Prover.round_phase_2 (Prover.round_phase_1_poly ps).2 c) state
              | .error _ => some (0 + 1)) = _
          rw [hround]
        have h1 : first_failure rand (n + 1) 0 ps vs =
            first_failure rand n 1
              (⟨1, 1 + n, reduce_map n (rand 0) (hTable poly [])⟩ : ProverState F)
              (⟨vs.last_round + 1, vs.num_polys, vs.poly, vs.claimed_sum,
                tableSumT (reduce_map n (rand 0) (hTable poly [])) n,
                vs.randomness ++ [rand 0]⟩ : VerifierState F) := by
          rw [h1a, hps2, hvs2]
        rw [h1, loop_no_failure poly.length hm1 hms hinj rand n 1 1 (vs.last_round + 1)
          vs.num_polys vs.poly vs.claimed_sum (vs.randomness ++ [rand 0])
          (reduce_map n (rand 0) (hTable poly []))
          (reduce_map_uniform _ _ _ _ hT)] at hfail
        cases hfail

/-- Witness for C7: the fixture claim `x₀ + 7` over `F101` started with the
wrong claimed sum 0 fails at round 1 and yields the empty randomness
vector. -/
theorem C7_witness :
    get_num_vars ([exG1] : ProductPolynomial F101) = some 2 ∧
      ([exG1] : ProductPolynomial F101).length < 65536 ∧
      Set.InjOn (Nat.cast : ℕ → F101)
        (Finset.range (([exG1] : ProductPolynomial F101).length + 1)) ∧
      first_failure (fun _ => 0) 2 0 (Prover.claim_sum [exG1]).2 vBad = some 1 ∧
      (orchestrate_protocol 2 vBad.claimed_sum (Prover.claim_sum [exG1]).2 vBad
          (fun _ => 0)).accept = false ∧
      (orchestrate_protocol 2 vBad.claimed_sum (Prover.claim_sum [exG1]).2 vBad
          (fun _ => 0))._randomness.length = 1 - 1 :=
  ⟨by decide, by decide, zmod_castInjOn_range 101 1 (by decide), by decide,
    (C7_early_rejection F101 [exG1] 2 vBad (fun _ => 0) 1 (by decide) (by decide)
      (zmod_castInjOn_range 101 1 (by decide)) (by decide)).1,
    (C7_early_rejection F101 [exG1] 2 vBad (fun _ => 0) 1 (by decide) (by decide)
      (zmod_castInjOn_range 101 1 (by decide)) (by decide)).2⟩


end SumCheck
